import Mathlib

/-!
Verification of the Real-Debrid STRM generator against its specification.

The Python sources (`real_debrid_api_client.py`, `cycle_manager.py`,
`real_debrid_processor.py`) are shallowly embedded below: HTTP traffic is
modelled by explicit response sequences or response oracles, the pointer-file
tree by an association list from (folder, file) to content, and every function
of the pipeline by a computable Lean definition mirroring the source.
-/

namespace RealDebridStrm

/-! ## Link resolver (`RealDebridAPIClient.unrestrict_link`) -/

/-- Payload of a successful unrestrict call: the fields of the JSON `result`
object that the rest of the pipeline reads (`download`, `filename`,
`filesize`, `mimeType`).  A key that is absent or JSON-null is modelled as the
empty string / zero, matching the falsy checks `unrestricted.get('download')`
and `unrestricted.get('filename')` downstream. -/
structure UnrestrictResult where
  download : String
  filename : String
  filesize : Nat
  mimeType : String
deriving DecidableEq, Repr

/-- Tagged status of one `unrestrict_link` outcome dict (`status` key plus the
payload the source stores beside it). -/
inductive UStatus where
  | success (result : UnrestrictResult)
  | failedRateLimit
  | retryNextCycle (retryCount : Nat)
  | failedOther (httpStatus : Nat) (error : String)
  | exception (error : String)
deriving DecidableEq, Repr

/-- The dict returned by `unrestrict_link`: every return path of the source
carries the input link under the `link` key. -/
structure UOutcome where
  link : String
  status : UStatus
deriving DecidableEq, Repr

/-- One HTTP response observed by `unrestrict_link`, or a transport
exception raised while performing the request. -/
inductive HttpResp where
  | ok (result : UnrestrictResult)
  | status (code : Nat) (body : String)
  | exc (msg : String)
deriving DecidableEq, Repr

/-- The `while True` loop of `RealDebridAPIClient.unrestrict_link`
(real_debrid_api_client.py lines 110-156).  One queued response is consumed
per HTTP attempt; `a429` and `a503` are the `rate_limit_attempts` and
`server_error_attempts` counters.  Returns the outcome dict, the total number
of HTTP attempts issued, and the list of backoff sleeps in seconds
(`2.0 * 2 ** (rate_limit_attempts - 1)` for 429, fixed `10.0` for 503), or
`none` when the queued response sequence is exhausted while the loop still
wants another attempt. -/
def unrestrictLoop (retry429 retry503 : Nat) (link : String) :
    List HttpResp → Nat → Nat → Option (UOutcome × Nat × List Nat)
  | [], _, _ => none
  | r :: rest, a429, a503 =>
    match r with
    | .ok res => some (⟨link, .success res⟩, 1, [])
    | .status 429 _ =>
      if a429 + 1 ≤ retry429 then
        match unrestrictLoop retry429 retry503 link rest (a429 + 1) a503 with
        | none => none
        | some (o, n, ds) => some (o, n + 1, 2 ^ (a429 + 1) :: ds)
      else some (⟨link, .failedRateLimit⟩, 1, [])
    | .status 503 _ =>
      if a503 + 1 ≤ retry503 then
        match unrestrictLoop retry429 retry503 link rest a429 (a503 + 1) with
        | none => none
        | some (o, n, ds) => some (o, n + 1, 10 :: ds)
      else some (⟨link, .retryNextCycle (a503 + 1)⟩, 1, [])
    | .status c body => some (⟨link, .failedOther c body⟩, 1, [])
    | .exc m => some (⟨link, .exception m⟩, 1, [])

/-- Model of `RealDebridAPIClient.unrestrict_link`: the loop entered with both
per-error-class counters at zero.  `retry429` and `retry503` are the
configured `retry_429_attempts` / `retry_503_attempts` budgets. -/
def unrestrict_link (retry429 retry503 : Nat) (link : String)
    (resps : List HttpResp) : Option (UOutcome × Nat × List Nat) :=
  unrestrictLoop retry429 retry503 link resps 0 0

/-! ## Torrent catalog pagination (`RealDebridAPIClient.fetch_torrents`) -/

/-- A torrent list entry as consumed by the pipeline: `id`, `filename`,
`status` and the indirect `links`. -/
structure Torrent where
  id : String
  filename : String
  status : String
  links : List String
deriving DecidableEq, Repr

/-- One response of the paginated `GET /torrents` endpoint. -/
inductive PageResp where
  | ok (data : List Torrent)
  | notFound
  | err (code : Nat) (body : String)
deriving Repr

/-- The pagination `while True` loop of `fetch_torrents`
(real_debrid_api_client.py lines 51-86).  `pages` is the response oracle for
each page number.  Termination cases, in source order: empty page, short page
(`len(data) < limit`), the 1000-page safety ceiling (checked after the
increment, so page 1000 is the last page ever requested), a 404, or any other
non-200 status.  Returns the accumulated torrents and the pages requested.
The fuel argument only bounds the recursion; called from `fetch_torrents` it
never runs out before the page-1000 ceiling fires. -/
def fetchLoop (pages : Nat → PageResp) (limit : Nat) :
    Nat → Nat → List Torrent → List Nat → List Torrent × List Nat
  | 0, _, acc, reqs => (acc, reqs)
  | fuel + 1, page, acc, reqs =>
    match pages page with
    | .ok data =>
      if data = [] then (acc, reqs ++ [page])
      else if data.length < limit then (acc ++ data, reqs ++ [page])
      else if page + 1 > 1000 then (acc ++ data, reqs ++ [page])
      else fetchLoop pages limit fuel (page + 1) (acc ++ data) (reqs ++ [page])
    | .notFound => (acc, reqs ++ [page])
    | .err _ _ => (acc, reqs ++ [page])

/-- Model of `RealDebridAPIClient.fetch_torrents`: starts at page 1 with `limit=100`. -/
def fetch_torrents (pages : Nat → PageResp) : List Torrent × List Nat :=
  fetchLoop pages 100 1000 1 [] []

/-- C6: pagination starts at page 1 with limit 100 and, when pages 1 and 2 are
full and page 3 returns fewer than `limit` items, returns exactly the
concatenation of pages 1-3 and requests exactly pages 1, 2, 3 (never page 4). -/
theorem fetch_torrents_stops_after_short_page
    (pages : Nat → PageResp) (l1 l2 l3 : List Torrent)
    (h1 : pages 1 = .ok l1) (h1len : l1.length = 100)
    (h2 : pages 2 = .ok l2) (h2len : l2.length = 100)
    (h3 : pages 3 = .ok l3) (h3len : l3.length < 100) :
    fetch_torrents pages = (l1 ++ l2 ++ l3, [1, 2, 3]) := by
  have hne1 : ¬ (l1 = []) := by
    intro h
    rw [h] at h1len
    simp at h1len
  have hne2 : ¬ (l2 = []) := by
    intro h
    rw [h] at h2len
    simp at h2len
  unfold fetch_torrents
  rw [show (1000 : Nat) = 999 + 1 from rfl, fetchLoop, h1]
  simp only [hne1, if_false, h1len]
  norm_num
  rw [show (999 : Nat) = 998 + 1 from rfl, fetchLoop, h2]
  simp only [hne2, if_false, h2len]
  norm_num
  rw [show (998 : Nat) = 997 + 1 from rfl, fetchLoop, h3]
  by_cases hne3 : l3 = []
  · subst hne3
    simp
  · simp only [hne3, if_false, h3len, if_true]
    simp [h3len]

/-- Witness for C6 at a concrete response oracle: two full pages of 100
torrents followed by a one-element page 3. -/
theorem fetch_torrents_stops_after_short_page_witness :
    fetch_torrents
        (fun p => if p ≤ 2 then .ok (List.replicate 100 ⟨"t", "n", "downloaded", []⟩)
                  else .ok [⟨"t", "n", "downloaded", []⟩])
      = (List.replicate 100 (⟨"t", "n", "downloaded", []⟩ : Torrent)
          ++ List.replicate 100 ⟨"t", "n", "downloaded", []⟩
          ++ [⟨"t", "n", "downloaded", []⟩], [1, 2, 3]) := by
  exact fetch_torrents_stops_after_short_page _ _ _ _ rfl (by simp) rfl (by simp) rfl
    (by simp)

/-- C1: per-error-class retry classification of `unrestrict_link`.  A
`503,503,503` sequence under `retry503Max=2` issues exactly 3 HTTP attempts
and ends as `retry_next_cycle` (after two fixed 10s backoffs); a
`429,429,429,429` sequence under `retry429Max=3` issues exactly 4 HTTP
attempts and ends as `failed_rate_limit`, the k-th 429 retry being preceded
by a backoff of `2^k` seconds (2s, 4s, 8s). -/
theorem unrestrict_retry_classification :
    unrestrict_link 3 2 "https://real-debrid.com/d/a"
        [.status 503 "", .status 503 "", .status 503 ""]
      = some (⟨"https://real-debrid.com/d/a", .retryNextCycle 3⟩, 3, [10, 10])
    ∧ unrestrict_link 3 2 "https://real-debrid.com/d/a"
        [.status 429 "", .status 429 "", .status 429 "", .status 429 ""]
      = some (⟨"https://real-debrid.com/d/a", .failedRateLimit⟩, 4, [2, 4, 8]) :=
  ⟨rfl, rfl⟩

/-! ## String utilities shared by the processor

Python string operations are modelled on `List Char` (Lean `String` is a
structure around `List Char` in this toolchain), so that every definition
reduces by `rfl`/`decide`. -/

/-- Model of `str.lower()` on one character (ASCII range, the only case the claims
exercise and the case `Char.toLower` of the source runtime handles). -/
def lowerChar (c : Char) : Char :=
  if 65 ≤ c.toNat ∧ c.toNat ≤ 90 then Char.ofNat (c.toNat + 32) else c

/-- Split a character list on a separator character (like `str.split(sep)`,
keeping empty components). -/
def splitOnChar (c : Char) : List Char → List (List Char)
  | [] => [[]]
  | x :: xs =>
    let r := splitOnChar c xs
    if x = c then [] :: r
    else
      match r with
      | [] => [[x]]
      | h :: t => (x :: h) :: t

/-- Model of `pathlib.PurePath(s).name`: the last non-empty `/`-separated component
(empty for the empty path). -/
def pathName (s : String) : String :=
  match ((splitOnChar '/' s.data).filter (fun p => !p.isEmpty)).getLast? with
  | some cs => ⟨cs⟩
  | none => ""

/-- Index of the last occurrence of a character (`str.rfind`). -/
def lastIdxOf (c : Char) : List Char → Option Nat
  | [] => none
  | x :: xs =>
    match lastIdxOf c xs with
    | some i => some (i + 1)
    | none => if x = c then some 0 else none

/-- Model of `pathlib.PurePath(s).suffix`: the extension of the base name, i.e. the
substring from the last dot, provided that dot is neither the first nor the
last character of the name. -/
def pySuffix (s : String) : String :=
  let nm := (pathName s).data
  match lastIdxOf '.' nm with
  | some i => if 0 < i ∧ i + 1 < nm.length then ⟨nm.drop i⟩ else ""
  | none => ""

/-- Bool test for `needle in hay` on character lists (Python `in` for
strings). -/
def listHasInfix (needle : List Char) : List Char → Bool
  | [] => needle.isEmpty
  | c :: rest => needle.isPrefixOf (c :: rest) || listHasInfix needle rest

/-! ## File acceptance policy (`RealDebridProcessor.should_process_file`) -/

/-- Constant `RealDebridProcessor.min_video_size_mb` (constructor default). -/
def min_video_size_mb : Nat := 300

/-- Constant `RealDebridProcessor.allowed_video_extensions`. -/
def allowed_video_extensions : List String :=
  [".mkv", ".mp4", ".avi", ".mov", ".wmv", ".m4v", ".webm", ".flv"]

/-- Constant `RealDebridProcessor.allowed_subtitle_extensions`. -/
def allowed_subtitle_extensions : List String :=
  [".srt", ".ass", ".vtt", ".sub", ".idx", ".ssa", ".smi"]

/-- Computation `file_ext = Path(filename).suffix.lower()` of the source. -/
def fileExtOf (filename : String) : String :=
  ⟨(pySuffix filename).data.map lowerChar⟩

/-- Test `mime_type and any(v in mime_type.lower() for v in ['video/', 'matroska'])`. -/
def mimeVideoLike (mime : String) : Bool :=
  let low := mime.data.map lowerChar
  listHasInfix "video/".data low || listHasInfix "matroska".data low

/-- The `is_video` flag of `should_process_file`: video extension, or a
non-empty MIME type containing `video/` or `matroska`. -/
def isVideoFile (filename mime : String) : Bool :=
  allowed_video_extensions.contains (fileExtOf filename)
    || (mime != "" && mimeVideoLike mime)

/-- Return value of `should_process_file` (the log-only `reason` string of the
source dict is not modelled). -/
structure FilterResult where
  should_process : Bool
  category : String
deriving DecidableEq, Repr

/-- Model of `RealDebridProcessor.should_process_file` (real_debrid_processor.py lines
683-730).  The source compares megabyte floats
(`filesize / (1024*1024) >= 300`); both sides are exactly representable
doubles, so the comparison is equivalent to the integer comparison
`filesize >= 300*1024*1024` used here (and a zero `filesize` maps to
`filesize_mb = 0`, which the same integer comparison rejects). -/
def should_process_file (filename : String) (filesize : Nat) (mime_type : String) :
    FilterResult :=
  if filename = "" then ⟨false, "unknown"⟩
  else if allowed_subtitle_extensions.contains (fileExtOf filename) then
    ⟨true, "subtitle"⟩
  else if isVideoFile filename mime_type then
    if min_video_size_mb * 1024 * 1024 ≤ filesize then ⟨true, "video"⟩
    else ⟨false, "video_small"⟩
  else ⟨false, "other"⟩

/-- C5: the acceptance policy of `should_process_file`.  A subtitle extension
is accepted regardless of size; a video file (by extension or video MIME
type, and not a subtitle) below `300*1024*1024` bytes is rejected as
`video_small` while exactly `300*1024*1024` bytes is accepted (inclusive
boundary); every other file type is rejected. -/
theorem should_process_file_policy (filename mime : String) (filesize : Nat) :
    (allowed_subtitle_extensions.contains (fileExtOf filename) = true →
      should_process_file filename filesize mime = ⟨true, "subtitle"⟩)
    ∧ (filename ≠ "" →
        allowed_subtitle_extensions.contains (fileExtOf filename) = false →
        isVideoFile filename mime = true →
        (filesize < 300 * 1024 * 1024 →
            should_process_file filename filesize mime = ⟨false, "video_small"⟩)
          ∧ (filesize = 300 * 1024 * 1024 →
            should_process_file filename filesize mime = ⟨true, "video"⟩))
    ∧ (filename ≠ "" →
        allowed_subtitle_extensions.contains (fileExtOf filename) = false →
        isVideoFile filename mime = false →
        should_process_file filename filesize mime = ⟨false, "other"⟩) := by
  refine ⟨?_, ?_, ?_⟩
  · intro h
    by_cases hf : filename = ""
    · subst hf
      exact absurd h (by decide)
    · have hmem : fileExtOf filename ∈ allowed_subtitle_extensions := by
        simpa using h
      simp [should_process_file, hf, hmem]
  · intro hf hs hv
    have hmem : fileExtOf filename ∉ allowed_subtitle_extensions := by
      simpa using hs
    constructor
    · intro hsize
      have hlt : ¬ (min_video_size_mb * 1024 * 1024 ≤ filesize) := by
        simp only [min_video_size_mb]
        omega
      simp [should_process_file, hf, hmem, hv, hlt]
    · intro hsize
      have hge : min_video_size_mb * 1024 * 1024 ≤ filesize := by
        simp only [min_video_size_mb]
        omega
      simp [should_process_file, hf, hmem, hv, hge]
  · intro hf hs hv
    have hmem : fileExtOf filename ∉ allowed_subtitle_extensions := by
      simpa using hs
    simp [should_process_file, hf, hmem, hv]

/-- Witness for C5 at concrete inputs: a zero-byte subtitle, a 100-byte video
(rejected as `video_small`), a video of exactly `300*1024*1024` bytes
(accepted), and a text file (rejected). -/
theorem should_process_file_policy_witness :
    should_process_file "sub.srt" 0 "" = ⟨true, "subtitle"⟩
    ∧ should_process_file "m.mkv" 100 "" = ⟨false, "video_small"⟩
    ∧ should_process_file "m.mkv" (300 * 1024 * 1024) "" = ⟨true, "video"⟩
    ∧ should_process_file "doc.txt" 999999999 "" = ⟨false, "other"⟩ := by
  refine ⟨(should_process_file_policy "sub.srt" "" 0).1 (by decide), ?_, ?_, ?_⟩
  · exact ((should_process_file_policy "m.mkv" "" 100).2.1 (by decide) (by decide)
      (by decide)).1 (by decide)
  · exact ((should_process_file_policy "m.mkv" "" (300 * 1024 * 1024)).2.1
      (by decide) (by decide) (by decide)).2 rfl
  · exact (should_process_file_policy "doc.txt" "" 999999999).2.2 (by decide)
      (by decide) (by decide)

/-! ## Filename sanitization (`RealDebridProcessor.sanitize_filename`)

Each regex substitution of the source is modelled as an explicit structural
recursion on `List Char`, so every stage reduces by `decide`/`rfl`. -/

/-- Value of a hexadecimal digit, if the character is one (`[0-9A-Fa-f]`). -/
def hexVal? (c : Char) : Option Nat :=
  if 48 ≤ c.toNat ∧ c.toNat ≤ 57 then some (c.toNat - 48)
  else if 65 ≤ c.toNat ∧ c.toNat ≤ 70 then some (c.toNat - 55)
  else if 97 ≤ c.toNat ∧ c.toNat ≤ 102 then some (c.toNat - 87)
  else none

/-- Token stream of percent decoding: a decoded escape byte or a literal
character. -/
inductive PctTok where
  | byte (b : Nat)
  | chr (c : Char)
deriving DecidableEq, Repr

/-- Scan for `%xx` escapes, turning each valid escape into its byte and
leaving everything else as literal characters (an invalid escape keeps the
percent sign literal, as `urllib.parse.unquote` does). -/
def pctTokens : List Char → List PctTok
  | [] => []
  | '%' :: h1 :: h2 :: rest2 =>
    match hexVal? h1, hexVal? h2 with
    | some a, some b => .byte (16 * a + b) :: pctTokens rest2
    | _, _ => .chr '%' :: pctTokens (h1 :: h2 :: rest2)
  | c :: rest => .chr c :: pctTokens rest

/-- Unicode replacement character, emitted for undecodable escape bytes. -/
def replacementChar : Char := Char.ofNat 0xFFFD

/-- UTF-8 decoding of a run of escape bytes with replacement on error, as
`unquote` performs (`errors='replace'`).  One- and two-byte forms are decoded
exactly; longer forms yield the replacement character.  No claim below
exercises non-ASCII escapes; this decoder only needs to be exact on ASCII
escapes and trivially on `%`-free strings (where it is never reached). -/
def utf8Decode : List Nat → List Char
  | [] => []
  | [b] => if b < 128 then [Char.ofNat b] else [replacementChar]
  | b :: b2 :: rest =>
    if b < 128 then Char.ofNat b :: utf8Decode (b2 :: rest)
    else if (194 ≤ b ∧ b ≤ 223) ∧ (128 ≤ b2 ∧ b2 ≤ 191) then
      Char.ofNat ((b - 192) * 64 + (b2 - 128)) :: utf8Decode rest
    else replacementChar :: utf8Decode (b2 :: rest)

/-- Decode a token stream: maximal runs of escape bytes are UTF-8 decoded,
literal characters pass through.  The first argument accumulates the current
byte run in reverse. -/
def decodeToks : List Nat → List PctTok → List Char
  | run, [] => utf8Decode run.reverse
  | run, .byte b :: rest => decodeToks (b :: run) rest
  | run, .chr c :: rest => utf8Decode run.reverse ++ c :: decodeToks [] rest

/-- Model of `urllib.parse.unquote` on the character level. -/
def pyUnquote (cs : List Char) : List Char :=
  decodeToks [] (pctTokens cs)

/-- The percent-decoding loop of `sanitize_filename` (up to three `unquote`
passes, stopping early at a fixpoint). -/
def unquote3 (cs : List Char) : List Char :=
  let a := pyUnquote cs
  if a = cs then cs
  else
    let b := pyUnquote a
    if b = a then a else pyUnquote b

/-- Substitution `re.sub(r'\.[^.]+$', '', name)`: drop from the last dot to
the end, provided at least one non-dot character follows that dot. -/
def rmLastExt (cs : List Char) : List Char :=
  match lastIdxOf '.' cs with
  | some i => if i + 1 < cs.length then cs.take i else cs
  | none => cs

/-- Decimal digit test (regex `\d`, ASCII). -/
def isDigitCh (c : Char) : Bool := 48 ≤ c.toNat && c.toNat ≤ 57

/-- Substitution `re.sub(r'^(hhd\d+\.com@|hdd\d+\.com@)', '', ...)`: strip a
known upload-site prefix. -/
def stripSitePfx (cs : List Char) : List Char :=
  match cs with
  | 'h' :: c2 :: 'd' :: rest =>
    if c2 = 'h' ∨ c2 = 'd' then
      if rest.takeWhile isDigitCh ≠ [] ∧
          (rest.dropWhile isDigitCh).take 5 = ['.', 'c', 'o', 'm', '@'] then
        (rest.dropWhile isDigitCh).drop 5
      else cs
    else cs
  | _ => cs

/-- Substitution `re.sub(r'(\.mp4|\.mkv|\.avi)$', '', ..., flags=IGNORECASE)`. -/
def rmKnownExt (cs : List Char) : List Char :=
  let low := cs.map lowerChar
  if ".mp4".data.isSuffixOf low || ".mkv".data.isSuffixOf low
      || ".avi".data.isSuffixOf low then
    cs.take (cs.length - 4)
  else cs

/-- Substitution `re.sub(r'%[0-9A-Fa-f]{2}', ' ', ...)`. -/
def pctToSpace : List Char → List Char
  | [] => []
  | '%' :: h1 :: h2 :: rest2 =>
    if (hexVal? h1).isSome && (hexVal? h2).isSome then ' ' :: pctToSpace rest2
    else '%' :: pctToSpace (h1 :: h2 :: rest2)
  | c :: rest => c :: pctToSpace rest

/-- Character class `[<>:"/\\|?*]` of the sanitizers. -/
def isBadChar (c : Char) : Bool :=
  ['<', '>', ':', '"', '/', '\\', '|', '?', '*'].contains c

/-- Character class `[\x00-\x1f\x7f-\x9f]` (control characters). -/
def isCtrlChar (c : Char) : Bool :=
  c.toNat ≤ 31 || (127 ≤ c.toNat && c.toNat ≤ 159)

/-- Character class `[._-]` (separators collapsed to spaces). -/
def isSepChar (c : Char) : Bool := ['.', '_', '-'].contains c

/-- Whitespace of Python regex `\s` / `str.isspace()` for text strings. -/
def isPySpace (c : Char) : Bool :=
  (9 ≤ c.toNat && c.toNat ≤ 13) || (28 ≤ c.toNat && c.toNat ≤ 32)
    || c.toNat = 133 || c.toNat = 160 || c.toNat = 5760
    || (8192 ≤ c.toNat && c.toNat ≤ 8202) || c.toNat = 8232 || c.toNat = 8233
    || c.toNat = 8239 || c.toNat = 8287 || c.toNat = 12288

/-- Run-collapsing substitution (`re.sub(r'[._-]+', ' ', ...)` and
`re.sub(r'\s+', ' ', ...)`): a run of class characters becomes one space.
The flag records whether the previous character was in the class. -/
def collapseRunsAux (p : Char → Bool) : Bool → List Char → List Char
  | _, [] => []
  | prev, c :: rest =>
    if p c then
      (if prev then ([] : List Char) else [' ']) ++ collapseRunsAux p true rest
    else c :: collapseRunsAux p false rest

/-- Substitution `re.sub(r'[._-]+', ' ', ...)`. -/
def collapseSeps (cs : List Char) : List Char := collapseRunsAux isSepChar false cs

/-- Substitution `re.sub(r'\s+', ' ', ...)`. -/
def collapseWs (cs : List Char) : List Char := collapseRunsAux isPySpace false cs

/-- Model of `str.strip()` (both ends, Python whitespace). -/
def pyStripChars (cs : List Char) : List Char :=
  ((cs.dropWhile (fun c => isPySpace c)).reverse.dropWhile
    (fun c => isPySpace c)).reverse

/-- Substitution `re.sub(r'\.+$', '', ...)`: drop trailing dots. -/
def rmTrailingDots (cs : List Char) : List Char :=
  (cs.reverse.dropWhile (fun c => c = '.')).reverse

/-- Model of `str.split()` (split on whitespace runs, no empty words).  The
first argument accumulates the current word in reverse. -/
def splitWsAux : List Char → List Char → List (List Char)
  | cur, [] => if cur = [] then [] else [cur.reverse]
  | cur, c :: rest =>
    if isPySpace c then
      if cur = [] then splitWsAux [] rest else cur.reverse :: splitWsAux [] rest
    else splitWsAux (c :: cur) rest

/-- Word-boundary truncation loop of `sanitize_filename` (lines 110-117):
append whole words while `len(truncated + " " + word) <= 95`, stop at the
first word that does not fit. -/
def truncWordsAux : List Char → List (List Char) → List Char
  | acc, [] => acc
  | acc, w :: ws =>
    if (acc ++ ' ' :: w).length ≤ 95 then
      truncWordsAux (if acc = [] then w else acc ++ ' ' :: w) ws
    else acc

/-- Truncation branch of `sanitize_filename` for names over 100 characters:
prefer the word-boundary prefix, fall back to a plain 95-character cut. -/
def truncateSmart (cs : List Char) : List Char :=
  let t := truncWordsAux [] (splitWsAux [] cs)
  if t ≠ [] then t else cs.take 95

/-- Word character test of regex `\w`.  ASCII letters, digits and the
underscore are exact; every character above 127 is treated as a word
character (approximating the Unicode word class; every claim below uses
ASCII-only inputs). -/
def isWordChar (c : Char) : Bool :=
  (48 ≤ c.toNat && c.toNat ≤ 57) || (65 ≤ c.toNat && c.toNat ≤ 90)
    || (97 ≤ c.toNat && c.toNat ≤ 122) || c = '_' || 128 ≤ c.toNat

/-- Pipeline body of `RealDebridProcessor.sanitize_filename`
(real_debrid_processor.py lines 63-137) on a non-empty name. -/
def sanitizeChars (name : List Char) : List Char :=
  let c0 := unquote3 name
  let c1 := rmLastExt c0
  let c2 := stripSitePfx c1
  let c3 := rmKnownExt c2
  let c4 := pctToSpace c3
  let c5 := c4.map (fun c => if isBadChar c then '_' else c)
  let c6 := c5.filter (fun c => !isCtrlChar c)
  let c7 := collapseSeps c6
  let c8 := collapseWs c7
  let c9 := pyStripChars c8
  let c10 := rmTrailingDots c9
  let c11 := if 100 < c10.length then truncateSmart c10 else c10
  let c12 := pyStripChars c11
  if c12.isEmpty || decide (c12.length < 3) then
    let fb := pyStripChars
      ((name.filter (fun c => isWordChar c || isPySpace c || c = '-')).take 50)
    if fb.isEmpty then "media_file".data else fb
  else c12

/-- Model of `RealDebridProcessor.sanitize_filename`. -/
def sanitize_filename (name : String) : String :=
  if name = "" then "unknown" else ⟨sanitizeChars name.data⟩

/-- Model of `pathlib.PurePath(s).stem`: the base name without its suffix. -/
def pyStem (s : String) : String :=
  let nm := (pathName s).data
  let suf := (pySuffix s).data
  ⟨nm.take (nm.length - suf.length)⟩

/-- Model of `RealDebridProcessor.sanitize_folder_name`
(real_debrid_processor.py lines 43-61). -/
def sanitize_folder_name (name : String) : String :=
  if name = "" then "Unknown"
  else
    let n1 :=
      if (allowed_video_extensions ++ allowed_subtitle_extensions).contains
          (fileExtOf name) then
        (pyStem name).data
      else name.data
    let n2 := n1.map (fun c => if isBadChar c then '_' else c)
    let n3 := n2.filter (fun c => !isCtrlChar c)
    let n4 := rmTrailingDots n3
    let n5 := pyStripChars n4
    if n5.isEmpty then "Unknown" else ⟨n5⟩

/-- C4 counterexample: sanitization is not idempotent.  The input `".."`
sanitizes to the fallback placeholder `"media_file"`, whose own sanitization
turns the underscore into a space, giving `"media file"`. -/
theorem sanitize_filename_not_idempotent :
    sanitize_filename (sanitize_filename "..") ≠ sanitize_filename ".." := by
  decide

/-! ## Idempotence analysis of `sanitize_filename` -/

/-- A character that every stage of `sanitize_filename` maps to itself: not a
separator, filesystem-special, control or percent character, not lowercasing
to a dot (so no case variant of a known extension can end at it), and
whitespace only if it is a plain space. -/
def isPlainChar (c : Char) : Bool :=
  !isSepChar c && !isBadChar c && !isCtrlChar c && !(c == '%')
    && !(lowerChar c == '.') && (!(isPySpace c) || c == ' ')

/-- Test that no two adjacent characters are both spaces. -/
def noDoubleSpace : List Char → Bool
  | [] => true
  | [_] => true
  | a :: b :: rest => !(a == ' ' && b == ' ') && noDoubleSpace (b :: rest)

/-- A clean name: 3 to 100 plain characters, no double spaces, and neither
starting nor ending with a space.  The main-path output of
`sanitize_filename` has this shape whenever it contains no percent sign or
fallback-kept separator. -/
def isCleanName (s : String) : Bool :=
  s.data.all isPlainChar && noDoubleSpace s.data
    && !(s.data.head? == some ' ') && !(s.data.getLast? == some ' ')
    && decide (3 ≤ s.data.length) && decide (s.data.length ≤ 100)

theorem isPlainChar_spec {c : Char} (h : isPlainChar c = true) :
    isSepChar c = false ∧ isBadChar c = false ∧ isCtrlChar c = false
      ∧ c ≠ '%' ∧ lowerChar c ≠ '.' ∧ (isPySpace c = true → c = ' ') := by
  simp only [isPlainChar, Bool.and_eq_true, Bool.not_eq_true', beq_iff_eq,
    Bool.or_eq_true, Bool.not_eq_true, bne_iff_ne, ne_eq] at h
  obtain ⟨⟨⟨⟨⟨h1, h2⟩, h3⟩, h4⟩, h5⟩, h6⟩ := h
  refine ⟨h1, h2, h3, ?_, ?_, ?_⟩
  · intro hc
    rw [hc] at h4
    simp at h4
  · intro hc
    rw [hc] at h5
    simp at h5
  · intro hsp
    rcases h6 with h6 | h6
    · rw [hsp] at h6
      cases h6
    · exact h6

theorem not_dot_of_not_sep {c : Char} (h : isSepChar c = false) : c ≠ '.' := by
  intro hc
  subst hc
  exact absurd h (by decide)

theorem map_eq_self_of {f : Char → Char} {cs : List Char}
    (h : ∀ c ∈ cs, f c = c) : cs.map f = cs := by
  induction cs with
  | nil => rfl
  | cons c rest ih =>
    simp only [List.map_cons, h c (List.mem_cons_self c rest),
      ih fun x hx => h x (List.mem_cons_of_mem c hx)]

theorem dropWhile_id_of_head {p : Char → Bool} {cs : List Char}
    (h : ∀ c, cs.head? = some c → p c = false) : cs.dropWhile p = cs := by
  cases cs with
  | nil => rfl
  | cons c rest => simp [List.dropWhile_cons, h c rfl]

theorem pctTokens_of_no_pct {cs : List Char} (h : ∀ c ∈ cs, c ≠ '%') :
    pctTokens cs = cs.map PctTok.chr := by
  induction cs with
  | nil => rfl
  | cons c rest ih =>
    have hc : c ≠ '%' := h c (List.mem_cons_self c rest)
    have ih2 := ih fun x hx => h x (List.mem_cons_of_mem c hx)
    rw [pctTokens.eq_def]
    split
    · simp at *
    · rename_i h1 h2 rest2 heq
      exfalso
      injection heq with hc2 hr2
      exact hc hc2
    · rename_i heq hne
      injection hne with ha hb
      subst ha
      subst hb
      rw [ih2]
      rfl

theorem decodeToks_of_chr (cs : List Char) :
    decodeToks [] (cs.map PctTok.chr) = cs := by
  induction cs with
  | nil => rfl
  | cons c rest ih => simp [decodeToks, utf8Decode, ih]

theorem pyUnquote_of_no_pct {cs : List Char} (h : ∀ c ∈ cs, c ≠ '%') :
    pyUnquote cs = cs := by
  rw [pyUnquote, pctTokens_of_no_pct h, decodeToks_of_chr]

theorem unquote3_of_no_pct {cs : List Char} (h : ∀ c ∈ cs, c ≠ '%') :
    unquote3 cs = cs := by
  simp [unquote3, pyUnquote_of_no_pct h]

theorem lastIdxOf_eq_none {c : Char} {cs : List Char} (h : ∀ x ∈ cs, x ≠ c) :
    lastIdxOf c cs = none := by
  induction cs with
  | nil => rfl
  | cons x rest ih =>
    rw [lastIdxOf, ih fun y hy => h y (List.mem_cons_of_mem x hy)]
    simp [h x (List.mem_cons_self x rest)]

theorem rmLastExt_of_no_dot {cs : List Char} (h : ∀ x ∈ cs, x ≠ '.') :
    rmLastExt cs = cs := by
  rw [rmLastExt, lastIdxOf_eq_none h]

theorem stripSitePfx_of_no_dot {cs : List Char} (h : ∀ x ∈ cs, x ≠ '.') :
    stripSitePfx cs = cs := by
  rw [stripSitePfx.eq_def]
  split
  · rename_i c2 rest
    split
    · split
      · rename_i hcond
        exfalso
        have hdot : '.' ∈ (rest.dropWhile isDigitCh).take 5 := by
          rw [hcond.2]
          simp
        have h1 : '.' ∈ rest.dropWhile isDigitCh :=
          List.take_subset 5 _ hdot
        have h2 : '.' ∈ rest := (List.dropWhile_sublist isDigitCh).subset h1
        exact h '.' (by simp [h2]) rfl
      · rfl
    · rfl
  · rfl

theorem rmKnownExt_of_no_lower_dot {cs : List Char}
    (h : ∀ x ∈ cs, lowerChar x ≠ '.') : rmKnownExt cs = cs := by
  have key : ∀ s : List Char, '.' ∈ s →
      s.isSuffixOf (cs.map lowerChar) = false := by
    intro s hs
    by_contra hfx
    have hsuf : s <:+ cs.map lowerChar := by
      rw [← List.isSuffixOf_iff_suffix]
      exact Bool.of_not_eq_false hfx
    have hmem : '.' ∈ cs.map lowerChar := hsuf.subset hs
    obtain ⟨x, hx, hlx⟩ := List.mem_map.mp hmem
    exact h x hx hlx
  rw [rmKnownExt]
  rw [key ".mp4".data (by decide), key ".mkv".data (by decide),
    key ".avi".data (by decide)]
  rfl

theorem pctToSpace_of_no_pct {cs : List Char} (h : ∀ c ∈ cs, c ≠ '%') :
    pctToSpace cs = cs := by
  induction cs with
  | nil => rfl
  | cons c rest ih =>
    have hc : c ≠ '%' := h c (List.mem_cons_self c rest)
    have ih2 := ih fun x hx => h x (List.mem_cons_of_mem c hx)
    rw [pctToSpace.eq_def]
    split
    · simp at *
    · rename_i h1 h2 rest2 heq
      exfalso
      injection heq with hc2 hr2
      exact hc hc2
    · rename_i heq hne
      injection hne with ha hb
      subst ha
      subst hb
      rw [ih2]

theorem collapseRunsAux_of_none {p : Char → Bool} {cs : List Char}
    (h : ∀ c ∈ cs, p c = false) (b : Bool) : collapseRunsAux p b cs = cs := by
  induction cs generalizing b with
  | nil => rfl
  | cons c rest ih =>
    rw [collapseRunsAux]
    simp only [h c (List.mem_cons_self c rest), if_false, Bool.false_eq_true]
    rw [ih (fun x hx => h x (List.mem_cons_of_mem c hx)) false]

theorem noDoubleSpace_tail {c : Char} {rest : List Char}
    (h : noDoubleSpace (c :: rest) = true) : noDoubleSpace rest = true := by
  cases rest with
  | nil => rfl
  | cons b r2 =>
    rw [noDoubleSpace, Bool.and_eq_true] at h
    exact h.2

theorem collapseWsAux_id {cs : List Char}
    (hone : ∀ c ∈ cs, isPySpace c = true → c = ' ')
    (hnd : noDoubleSpace cs = true) :
    collapseRunsAux isPySpace false cs = cs
    ∧ ((∀ c, cs.head? = some c → isPySpace c = false) →
        collapseRunsAux isPySpace true cs = cs) := by
  induction cs with
  | nil => exact ⟨rfl, fun _ => rfl⟩
  | cons c rest ih =>
    have hone2 : ∀ x ∈ rest, isPySpace x = true → x = ' ' :=
      fun x hx => hone x (List.mem_cons_of_mem c hx)
    obtain ⟨ih1, ih2⟩ := ih hone2 (noDoubleSpace_tail hnd)
    by_cases hsp : isPySpace c = true
    · have hc : c = ' ' := hone c (List.mem_cons_self c rest) hsp
      subst hc
      constructor
      · rw [collapseRunsAux]
        simp only [hsp, if_true]
        have hrest : ∀ c0, rest.head? = some c0 → isPySpace c0 = false := by
          intro c0 hc0
          have hm : c0 ∈ rest := List.mem_of_mem_head? (by rw [hc0]; rfl)
          by_contra hpx
          have hc0sp : c0 = ' ' := hone2 c0 hm (Bool.of_not_eq_false hpx)
          subst hc0sp
          cases rest with
          | nil => simp at hc0
          | cons b r2 =>
            have hb : b = ' ' := by
              injection hc0
            subst hb
            rw [noDoubleSpace] at hnd
            simp at hnd
        rw [ih2 hrest]
        rfl
      · intro hhd
        exact absurd (hhd ' ' rfl) (by simp [hsp])
    · have hspf : isPySpace c = false := Bool.of_not_eq_true hsp
      constructor
      · rw [collapseRunsAux]
        simp only [hspf, Bool.false_eq_true, if_false]
        rw [ih1]
      · intro _
        rw [collapseRunsAux]
        simp only [hspf, Bool.false_eq_true, if_false]
        rw [ih1]

theorem pyStripChars_id {cs : List Char}
    (h1 : ∀ c, cs.head? = some c → isPySpace c = false)
    (h2 : ∀ c, cs.getLast? = some c → isPySpace c = false) :
    pyStripChars cs = cs := by
  unfold pyStripChars
  rw [dropWhile_id_of_head h1, dropWhile_id_of_head, List.reverse_reverse]
  intro c hc
  rw [List.head?_reverse] at hc
  exact h2 c hc

theorem rmTrailingDots_id {cs : List Char} (h : ∀ x ∈ cs, x ≠ '.') :
    rmTrailingDots cs = cs := by
  unfold rmTrailingDots
  rw [dropWhile_id_of_head, List.reverse_reverse]
  intro c hc
  have hmr : c ∈ cs.reverse := List.mem_of_mem_head? (by rw [hc]; rfl)
  have hm : c ∈ cs := List.mem_reverse.mp hmr
  simp [h c hm]

/-- Fixpoint lemma: a clean list of characters passes through every stage of
`sanitizeChars` unchanged. -/
theorem sanitizeChars_fixpoint {cs : List Char}
    (hP : ∀ c ∈ cs, isPlainChar c = true)
    (hnd : noDoubleSpace cs = true)
    (hhd : ∀ c, cs.head? = some c → c ≠ ' ')
    (hlast : ∀ c, cs.getLast? = some c → c ≠ ' ')
    (hlen3 : 3 ≤ cs.length) (hlen100 : cs.length ≤ 100) :
    sanitizeChars cs = cs := by
  have spec := fun c hc => isPlainChar_spec (hP c hc)
  have hdot : ∀ x ∈ cs, x ≠ '.' :=
    fun x hx => not_dot_of_not_sep (spec x hx).1
  have hpct : ∀ x ∈ cs, x ≠ '%' := fun x hx => (spec x hx).2.2.2.1
  have hldot : ∀ x ∈ cs, lowerChar x ≠ '.' := fun x hx => (spec x hx).2.2.2.2.1
  have hsep : ∀ x ∈ cs, isSepChar x = false := fun x hx => (spec x hx).1
  have hbad : ∀ x ∈ cs, isBadChar x = false := fun x hx => (spec x hx).2.1
  have hctrl : ∀ x ∈ cs, isCtrlChar x = false := fun x hx => (spec x hx).2.2.1
  have hone : ∀ x ∈ cs, isPySpace x = true → x = ' ' :=
    fun x hx => (spec x hx).2.2.2.2.2
  have hhdsp : ∀ c, cs.head? = some c → isPySpace c = false := by
    intro c hc
    by_contra hpx
    exact hhd c hc (hone c (List.mem_of_mem_head? (by rw [hc]; rfl))
      (Bool.of_not_eq_false hpx))
  have hlastsp : ∀ c, cs.getLast? = some c → isPySpace c = false := by
    intro c hc
    by_contra hpx
    have hm : c ∈ cs := by
      have hmr : c ∈ cs.reverse :=
        List.mem_of_mem_head? (by rw [List.head?_reverse, hc]; rfl)
      exact List.mem_reverse.mp hmr
    exact hlast c hc (hone c hm (Bool.of_not_eq_false hpx))
  simp only [sanitizeChars]
  rw [unquote3_of_no_pct hpct, rmLastExt_of_no_dot hdot,
    stripSitePfx_of_no_dot hdot, rmKnownExt_of_no_lower_dot hldot,
    pctToSpace_of_no_pct hpct,
    map_eq_self_of (fun c hc => by simp [hbad c hc]),
    List.filter_eq_self.mpr (fun c hc => by simp [hctrl c hc])]
  rw [show collapseSeps cs = cs from collapseRunsAux_of_none hsep false]
  rw [show collapseWs cs = cs from (collapseWsAux_id hone hnd).1]
  rw [pyStripChars_id hhdsp hlastsp, rmTrailingDots_id hdot]
  rw [if_neg (show ¬ (100 < cs.length) by omega)]
  rw [pyStripChars_id hhdsp hlastsp]
  rw [if_neg]
  simp only [Bool.or_eq_true, List.isEmpty_iff, decide_eq_true_eq]
  push_neg
  constructor
  · intro hnil
    rw [hnil] at hlen3
    simp at hlen3
  · omega

/-- Fixpoint lemma on strings: a clean name is unchanged by
`sanitize_filename`. -/
theorem sanitize_filename_fixpoint {y : String} (h : isCleanName y = true) :
    sanitize_filename y = y := by
  simp only [isCleanName, Bool.and_eq_true, List.all_eq_true,
    decide_eq_true_eq, Bool.not_eq_true', beq_eq_false_iff_ne, ne_eq] at h
  obtain ⟨⟨⟨⟨⟨hall, hnd⟩, hhd⟩, hlast⟩, hlen3⟩, hlen100⟩ := h
  have hne : y ≠ "" := by
    intro hy
    subst hy
    simp at hlen3
  rw [sanitize_filename, if_neg hne]
  have := sanitizeChars_fixpoint hall hnd
    (fun c hc => by intro hcc; subst hcc; exact hhd hc)
    (fun c hc => by intro hcc; subst hcc; exact hlast hc)
    hlen3 hlen100
  rw [this]

/-- C4 amended: sanitization is idempotent on every input whose sanitized
form is a clean name (3 to 100 characters, none of which is a separator,
percent, filesystem-special or control character or unusual whitespace, with
single internal spaces and no leading or trailing space).  The original
unrestricted claim fails, e.g. at the input `".."` (see the counterexample
theorem). -/
theorem sanitize_filename_idempotent_on_clean (s : String)
    (h : isCleanName (sanitize_filename s) = true) :
    sanitize_filename (sanitize_filename s) = sanitize_filename s :=
  sanitize_filename_fixpoint h

/-- Witness for the amended C4 at the concrete input `"abc.mkv"` (which
sanitizes to the clean name `"abc"`). -/
theorem sanitize_filename_idempotent_on_clean_witness :
    isCleanName (sanitize_filename "abc.mkv") = true
    ∧ sanitize_filename (sanitize_filename "abc.mkv")
        = sanitize_filename "abc.mkv" :=
  ⟨by decide, sanitize_filename_idempotent_on_clean "abc.mkv" (by decide)⟩

/-! ## Batch orchestrator (`RealDebridAPIClient.unrestrict_links_batch`) -/

/-- Constant `self.concurrency_limit` (3 concurrent requests). -/
def concurrency_limit : Nat := 3

/-- Chunking loop for `[links[i:i+c] for i in range(0, len(links), c)]`:
`cur` holds the current chunk in reverse, `k` its remaining capacity. -/
def chunksAux {α : Type} (n : Nat) : List α → List α → Nat → List (List α)
  | [], cur, _ => if cur.isEmpty then [] else [cur.reverse]
  | x :: xs, cur, 0 => cur.reverse :: chunksAux n xs [x] (n - 1)
  | x :: xs, cur, k + 1 => chunksAux n xs (x :: cur) k

/-- Batch slicing `[links[i:i+n] for i in range(0, len(links), n)]`. -/
def chunkList {α : Type} (n : Nat) (xs : List α) : List (List α) :=
  chunksAux n xs [] n

theorem flatten_chunksAux {α : Type} (n : Nat) :
    ∀ (xs cur : List α) (k : Nat),
      (chunksAux n xs cur k).flatten = cur.reverse ++ xs := by
  intro xs
  induction xs with
  | nil =>
    intro cur k
    rw [chunksAux]
    split
    · rename_i hc
      rw [List.isEmpty_iff] at hc
      simp [hc]
    · simp
  | cons x xs ih =>
    intro cur k
    cases k with
    | zero =>
      rw [chunksAux, List.flatten_cons, ih]
      simp
    | succ k2 =>
      rw [chunksAux, ih]
      simp

theorem flatten_chunkList {α : Type} (n : Nat) (xs : List α) :
    (chunkList n xs).flatten = xs := by
  rw [chunkList, flatten_chunksAux]
  rfl

/-- Model of `RealDebridAPIClient.unrestrict_links_batch`
(real_debrid_api_client.py lines 189-224).  The per-link coroutine
`unrestrict_link` returns an outcome dict on every path (its `try` wraps the
whole request and `gather` runs with `return_exceptions=True`), so the
per-link resolution is a total function `resolve`; the
`isinstance(result, dict)` filter of the source keeps every result.  Batches
run in source order and each batch contributes its results in order; the
inter-batch pacing sleep has no effect on the result list and is not
modelled. -/
def unrestrict_links_batch (resolve : String → UStatus) (links : List String) :
    List UOutcome :=
  (chunkList concurrency_limit links).foldl
    (fun acc batch => acc ++ batch.map (fun l => ⟨l, resolve l⟩)) []

theorem foldl_append_map {α β : Type} (f : α → β) :
    ∀ (L : List (List α)) (acc : List β),
      L.foldl (fun a b => a ++ b.map f) acc = acc ++ L.flatten.map f := by
  intro L
  induction L with
  | nil => simp
  | cons b L2 ih =>
    intro acc
    rw [List.foldl_cons, ih, List.flatten_cons]
    simp

/-- Helper: the batch orchestrator is exactly a map over the input links. -/
theorem unrestrict_links_batch_eq_map (resolve : String → UStatus)
    (links : List String) :
    unrestrict_links_batch resolve links
      = links.map (fun l => (⟨l, resolve l⟩ : UOutcome)) := by
  rw [unrestrict_links_batch, foldl_append_map, flatten_chunkList]
  rfl

/-- C7: the batch orchestrator yields exactly one tagged outcome per input
link, in order — the result is precisely the per-link resolution mapped over
the inputs, so no failure aborts a group or later groups, the result length
equals the input length, and reading back the `link` keys returns the input
list (no input is dropped). -/
theorem unrestrict_links_batch_total (resolve : String → UStatus)
    (links : List String) :
    unrestrict_links_batch resolve links
        = links.map (fun l => (⟨l, resolve l⟩ : UOutcome))
    ∧ (unrestrict_links_batch resolve links).length = links.length
    ∧ (unrestrict_links_batch resolve links).map UOutcome.link = links := by
  refine ⟨unrestrict_links_batch_eq_map resolve links, ?_, ?_⟩
  · rw [unrestrict_links_batch_eq_map, List.length_map]
  · rw [unrestrict_links_batch_eq_map, List.map_map]
    simp [Function.comp_def]

/-! ## Torrent processing pipeline
(`process_torrents_with_grouping`, `_create_torrent_groups_with_skip`,
`_create_grouped_strm_files`, `process_from_api`) -/

/-- Literal link prefix `https://real-debrid.com/d/` required by the
collection loop. -/
def rdLinkPfx : String := "https://real-debrid.com/d/"

/-- Test `link.startswith(pfx)`, as a character-list prefix check. -/
def pyStartsWith (link pfx : String) : Bool := pfx.data.isPrefixOf link.data

/-- Link collection of `process_torrents_with_grouping` step 2 (lines
260-271): from every torrent with `status == 'downloaded'` and a non-empty
`links` list, keep exactly the links starting with the literal prefix. -/
def collect_links (torrents : List Torrent) : List String :=
  torrents.foldl
    (fun acc t =>
      if t.status = "downloaded" ∧ t.links ≠ [] then
        acc ++ t.links.filter (fun l => pyStartsWith l rdLinkPfx)
      else acc)
    []

/-- One entry of `realdebrid_unrestricted.json`: the `link` key plus the
`result` object when present (error entries carry no `result`). -/
structure UEntry where
  link : String
  result : Option UnrestrictResult
deriving DecidableEq, Repr

/-- Conversion of an outcome dict to its stored JSON entry: only a success
carries a `result` key. -/
def outcomeToEntry (o : UOutcome) : UEntry :=
  match o.status with
  | .success r => ⟨o.link, some r⟩
  | _ => ⟨o.link, none⟩

/-- Data-flow result of `process_torrents_with_grouping`: success flag and
error, the links sent to the unrestrict endpoint this run, and the cumulative
unrestricted results written back to disk. -/
structure ApiRunResult where
  success : Bool
  error : Option String
  unrestrictCalls : List String
  allResults : List UEntry
deriving Repr

/-- Model of `RealDebridAPIClient.process_torrents_with_grouping`
(real_debrid_api_client.py lines 226-355) with the catalog fetch abstracted
to the already-fetched `torrents` list and the unrestrict endpoint to
`resolve`.  An empty catalog returns the failure summary before collecting
links, resolving anything, or changing the stored results; otherwise the new
links (those with the required prefix and no existing entry) are resolved and
appended to the existing results.  JSON/text file outputs and the summary
statistics are not modelled. -/
def process_torrents_with_grouping (torrents : List Torrent)
    (existing_results : List UEntry) (resolve : String → UStatus) :
    ApiRunResult :=
  if torrents = [] then ⟨false, some "No torrents found", [], existing_results⟩
  else
    let all_links := collect_links torrents
    let existing_links := existing_results.map UEntry.link
    let new_links := all_links.filter (fun l => !(existing_links.contains l))
    let new_results := (unrestrict_links_batch resolve new_links).map outcomeToEntry
    ⟨true, none, new_links, existing_results ++ new_results⟩

/-- Python-dict insertion semantics: an existing key keeps its position and
gets the new value, a new key is appended. -/
def dictInsert {κ ν : Type} [BEq κ] (m : List (κ × ν)) (k : κ) (v : ν) :
    List (κ × ν) :=
  if m.any (fun p => p.1 == k) then
    m.map (fun p => if p.1 == k then (k, v) else p)
  else m ++ [(k, v)]

/-- Python dict built from a pair list (dict comprehension semantics:
first-occurrence key order, last value wins). -/
def buildDict {κ ν : Type} [BEq κ] (pairs : List (κ × ν)) : List (κ × ν) :=
  pairs.foldl (fun m p => dictInsert m p.1 p.2) []

/-- Dict lookup (first matching key, as `find?` over the pair list). -/
def dictGet? {κ ν : Type} [BEq κ] : List (κ × ν) → κ → Option ν
  | [], _ => none
  | p :: m, k => if p.1 == k then some p.2 else dictGet? m k

/-- One accepted file of a torrent group (lines 312-320 of the source). -/
structure GroupFile where
  original_link : String
  download_url : String
  filename : String
  filesize : Nat
  mime_type : String
  category : String
  sanitized_name : String
deriving DecidableEq, Repr

/-- One torrent group (lines 334-339 of the source). -/
structure TorrentGroup where
  torrent_name : String
  folder_name : String
  files : List GroupFile
deriving DecidableEq, Repr

/-- Body of the inner file loop of `_create_torrent_groups_with_skip` (lines
290-332) for one link: a link without an unrestricted entry or without usable
`download`/`filename` contributes nothing; an already-materialized URL is
skipped; otherwise the file is kept exactly when `should_process_file`
accepts it. -/
def torrentFilesStep (l2u : List (String × UnrestrictResult))
    (skip_existing : Bool) (existing_urls : List String)
    (files : List GroupFile) (link : String) : List GroupFile :=
  match dictGet? l2u link with
  | none => files
  | some u =>
    if u.download ≠ "" ∧ u.filename ≠ "" then
      if skip_existing ∧ u.download ∈ existing_urls then files
      else
        if (should_process_file u.filename u.filesize u.mimeType).should_process then
          files ++ [⟨link, u.download, u.filename, u.filesize, u.mimeType,
            (should_process_file u.filename u.filesize u.mimeType).category,
            sanitize_filename u.filename⟩]
        else files
    else files

/-- Inner file loop of `_create_torrent_groups_with_skip` over the links of
one torrent (lines 289-332). -/
def torrentFiles (l2u : List (String × UnrestrictResult)) (skip_existing : Bool)
    (existing_urls : List String) (links : List String) : List GroupFile :=
  links.foldl (torrentFilesStep l2u skip_existing existing_urls) []

/-- Model of `RealDebridProcessor._create_torrent_groups_with_skip`
(real_debrid_processor.py lines 264-353).  Returns the groups dict as an
association list keyed by torrent id, in torrent-map order, containing only
torrents with at least one accepted file.  The torrent display name is the
`filename` field (the source's fallback for a missing key is not modelled);
the filtering statistics are log-only and not modelled. -/
def create_torrent_groups_with_skip (torrents : List Torrent)
    (unrestricted : List UEntry) (skip_existing : Bool)
    (existing_urls : List String) : List (String × TorrentGroup) :=
  let torrent_map := buildDict
    ((torrents.filter (fun t => t.status == "downloaded")).map (fun t => (t.id, t)))
  let l2u := buildDict (unrestricted.filterMap
    (fun r => r.result.map (fun res => (r.link, res))))
  torrent_map.foldl
    (fun groups p =>
      let torrent_name := p.2.filename
      let folder_name := sanitize_folder_name torrent_name
      let files := torrentFiles l2u skip_existing existing_urls p.2.links
      if files ≠ [] then groups ++ [(p.1, ⟨torrent_name, folder_name, files⟩)]
      else groups)
    []

/-- The pointer-file tree: an association list from (folder name, pointer
file name) to stored content.  Keys stay unique because writes go through
`dictInsert`. -/
abbrev STRMTree := List ((String × String) × String)

/-- Model of `str.strip()` on strings, used when reading a pointer file back
(`strm_path.read_text().strip()`). -/
def pyStripStr (s : String) : String := ⟨pyStripChars s.data⟩

/-- One pointer-file write of `_create_grouped_strm_files` (lines 373-394):
skip when the file exists and its stripped content equals the new URL,
otherwise write/overwrite.  The returned flag is true when a write happened. -/
def writeStrm (fs : STRMTree) (folder fname url : String) : STRMTree × Bool :=
  match dictGet? fs (folder, fname) with
  | some content =>
    if pyStripStr content = url then (fs, false)
    else (dictInsert fs (folder, fname) url, true)
  | none => (dictInsert fs (folder, fname) url, true)

/-- One iteration of the pointer-file loop threading state
`(tree, created, skipped)` over a write target `((folder, name), url)`:
perform `writeStrm` and bump the matching counter. -/
def strmStep (st : STRMTree × Nat × Nat) (tr : (String × String) × String) :
    STRMTree × Nat × Nat :=
  if (writeStrm st.1 tr.1.1 tr.1.2 tr.2).2 then
    ((writeStrm st.1 tr.1.1 tr.1.2 tr.2).1, st.2.1 + 1, st.2.2)
  else ((writeStrm st.1 tr.1.1 tr.1.2 tr.2).1, st.2.1, st.2.2 + 1)

/-- Model of `RealDebridProcessor._create_grouped_strm_files`
(real_debrid_processor.py lines 355-396): the nested loop over groups and
their files, threading the tree and the created/skipped counters. -/
def create_grouped_strm_files (groups : List (String × TorrentGroup))
    (fs : STRMTree) : STRMTree × Nat × Nat :=
  groups.foldl
    (fun st p =>
      p.2.files.foldl
        (fun st2 f => strmStep st2
          ((p.2.folder_name, f.sanitized_name ++ ".strm"), f.download_url))
        st)
    (fs, 0, 0)

/-- Combined observable result of one cycle-mode `process_from_api` run. -/
structure ProcessResult where
  success : Bool
  error : Option String
  unrestrictCalls : List String
  tree : STRMTree
  created : Nat
  skipped : Nat
deriving Repr

/-- Model of `RealDebridProcessor.process_from_api` in cycle mode
(real_debrid_processor.py lines 175-262): run the API client; when it fails,
return its failure result before any grouping or pointer-file write;
otherwise build the groups with skip logic over the cumulated unrestricted
results and write the pointer files. -/
def process_from_api (torrents : List Torrent) (existing_results : List UEntry)
    (resolve : String → UStatus) (existing_urls : List String)
    (fs : STRMTree) : ProcessResult :=
  let api := process_torrents_with_grouping torrents existing_results resolve
  if api.success then
    let groups := create_torrent_groups_with_skip torrents api.allResults
      true existing_urls
    let strm := create_grouped_strm_files groups fs
    ⟨true, none, api.unrestrictCalls, strm.1, strm.2.1, strm.2.2⟩
  else
    ⟨false, api.error, api.unrestrictCalls, fs, 0, 0⟩

/-- C9: an empty torrent catalog is treated as an error, not a best-effort
empty result: `process_from_api` returns the failure summary
`success = false, error = 'No torrents found'`, resolves no link and writes
no pointer file (the tree is returned unchanged, zero creations). -/
theorem empty_catalog_is_error (existing_results : List UEntry)
    (resolve : String → UStatus) (existing_urls : List String) (fs : STRMTree) :
    process_from_api [] existing_results resolve existing_urls fs
      = ⟨false, some "No torrents found", [], fs, 0, 0⟩ := rfl

/-! ## Link-prefix filtering (C10) -/

theorem collect_links_aux (ts : List Torrent) :
    ∀ (acc : List String), (∀ l ∈ acc, pyStartsWith l rdLinkPfx = true) →
      ∀ l ∈ ts.foldl
          (fun acc t =>
            if t.status = "downloaded" ∧ t.links ≠ [] then
              acc ++ t.links.filter (fun l => pyStartsWith l rdLinkPfx)
            else acc)
          acc,
        pyStartsWith l rdLinkPfx = true := by
  induction ts with
  | nil => exact fun acc hacc l hl => hacc l hl
  | cons t ts2 ih =>
    intro acc hacc l hl
    rw [List.foldl_cons] at hl
    refine ih _ ?_ l hl
    intro x hx
    split at hx
    · rcases List.mem_append.mp hx with h | h
      · exact hacc x h
      · exact (List.mem_filter.mp h).2
    · exact hacc x hx

/-- Helper: every collected link starts with the literal prefix. -/
theorem collect_links_all_prefixed (ts : List Torrent) :
    ∀ l ∈ collect_links ts, pyStartsWith l rdLinkPfx = true :=
  collect_links_aux ts [] (fun l hl => absurd hl (List.not_mem_nil l))

theorem dictInsert_keys {κ ν : Type} [BEq κ] [LawfulBEq κ]
    (m : List (κ × ν)) (k0 : κ) (v0 : ν) :
    ∀ p ∈ dictInsert m k0 v0, p.1 ∈ m.map Prod.fst ∨ p.1 = k0 := by
  intro p hp
  rw [dictInsert] at hp
  split at hp
  · obtain ⟨q, hq, hqe⟩ := List.mem_map.mp hp
    by_cases hqk : (q.1 == k0) = true
    · rw [if_pos hqk] at hqe
      right
      rw [← hqe]
    · rw [if_neg hqk] at hqe
      left
      rw [← hqe]
      exact List.mem_map_of_mem Prod.fst hq
  · rcases List.mem_append.mp hp with h | h
    · left
      exact List.mem_map_of_mem Prod.fst h
    · right
      have : p = (k0, v0) := by simpa using h
      rw [this]

theorem buildDict_keys_aux {κ ν : Type} [BEq κ] [LawfulBEq κ] :
    ∀ (pairs m : List (κ × ν)) (p : κ × ν),
      p ∈ pairs.foldl (fun m q => dictInsert m q.1 q.2) m →
      p.1 ∈ m.map Prod.fst ∨ p.1 ∈ pairs.map Prod.fst := by
  intro pairs
  induction pairs with
  | nil =>
    intro m p hp
    left
    exact List.mem_map_of_mem Prod.fst hp
  | cons q pairs2 ih =>
    intro m p hp
    rw [List.foldl_cons] at hp
    rcases ih _ p hp with h | h
    · obtain ⟨r, hr, hre⟩ := List.mem_map.mp h
      rcases dictInsert_keys m q.1 q.2 r hr with h2 | h2
    -- p.1 = r.1 via hre
      · left
        rw [← hre]
        exact h2
      · right
        rw [← hre, h2]
        exact List.mem_map_of_mem Prod.fst (List.mem_cons_self q pairs2)
    · right
      rcases List.mem_map.mp h with ⟨r, hr, hre⟩
      rw [← hre]
      exact List.mem_map_of_mem Prod.fst (List.mem_cons_of_mem q hr)

/-- Helper: every key of a built dict comes from the pair list. -/
theorem buildDict_keys {κ ν : Type} [BEq κ] [LawfulBEq κ]
    (pairs : List (κ × ν)) :
    ∀ p ∈ buildDict pairs, p.1 ∈ pairs.map Prod.fst := by
  intro p hp
  rcases buildDict_keys_aux pairs [] p hp with h | h
  · simp at h
  · exact h

theorem dictGet?_some_key {κ ν : Type} [BEq κ] [LawfulBEq κ]
    {m : List (κ × ν)} {k : κ} {v : ν}
    (h : dictGet? m k = some v) : k ∈ m.map Prod.fst := by
  induction m with
  | nil => cases h
  | cons q m2 ih =>
    rw [dictGet?] at h
    split at h
    · rename_i hq
      have hqk : q.1 = k := by simpa using hq
      rw [← hqk]
      exact List.mem_map_of_mem Prod.fst (List.mem_cons_self q m2)
    · have := ih h
      rw [List.map_cons]
      exact List.mem_cons_of_mem q.1 this

theorem torrentFilesStep_mem (l2u : List (String × UnrestrictResult))
    (skip_existing : Bool) (existing_urls : List String)
    (files : List GroupFile) (link : String) :
    ∀ f ∈ torrentFilesStep l2u skip_existing existing_urls files link,
      f ∈ files ∨ f.original_link ∈ l2u.map Prod.fst := by
  intro f hf
  rw [torrentFilesStep] at hf
  split at hf
  · exact Or.inl hf
  · rename_i u hu
    split at hf
    · split at hf
      · exact Or.inl hf
      · split at hf
        · rcases List.mem_append.mp hf with h | h
          · exact Or.inl h
          · right
            have : f = ⟨link, u.download, u.filename, u.filesize, u.mimeType,
                (should_process_file u.filename u.filesize u.mimeType).category,
                sanitize_filename u.filename⟩ := by simpa using h
            rw [this]
            exact dictGet?_some_key hu
        · exact Or.inl hf
    · exact Or.inl hf

theorem torrentFiles_links (l2u : List (String × UnrestrictResult))
    (skip_existing : Bool) (existing_urls : List String) :
    ∀ (links : List String) (acc : List GroupFile),
      ∀ f ∈ links.foldl (torrentFilesStep l2u skip_existing existing_urls) acc,
        f ∈ acc ∨ f.original_link ∈ l2u.map Prod.fst := by
  intro links
  induction links with
  | nil => exact fun acc f hf => Or.inl hf
  | cons link links2 ih =>
    intro acc f hf
    rw [List.foldl_cons] at hf
    rcases ih _ f hf with h | h
    · exact torrentFilesStep_mem l2u skip_existing existing_urls acc link f h
    · exact Or.inr h

/-- Helper: every file of every group points back to a link that has an
entry carrying a `result` in the unrestricted data. -/
theorem groups_files_from_unrestricted (torrents : List Torrent)
    (unrestricted : List UEntry) (skip_existing : Bool)
    (existing_urls : List String) :
    ∀ p ∈ create_torrent_groups_with_skip torrents unrestricted skip_existing
        existing_urls,
      ∀ f ∈ p.2.files, f.original_link ∈ unrestricted.map UEntry.link := by
  have hkey : ∀ q ∈ buildDict (unrestricted.filterMap
      (fun r => r.result.map (fun res => (r.link, res)))),
      q.1 ∈ unrestricted.map UEntry.link := by
    intro q hq
    have h1 := buildDict_keys _ q hq
    obtain ⟨pr, hpr, hpre⟩ := List.mem_map.mp h1
    obtain ⟨r, hr, hre⟩ := List.mem_filterMap.mp hpr
    rcases hres : r.result with _ | res
    · rw [hres] at hre
      cases hre
    · rw [hres] at hre
      have hpr2 : (r.link, res) = pr := by simpa using hre
      rw [← hpre, ← hpr2]
      exact List.mem_map_of_mem UEntry.link hr
  rw [create_torrent_groups_with_skip]
  generalize hmap : buildDict ((torrents.filter
    (fun t => t.status == "downloaded")).map (fun t => (t.id, t))) = tmap
  clear hmap
  suffices haux : ∀ (acc : List (String × TorrentGroup)),
      (∀ p ∈ acc, ∀ f ∈ p.2.files,
        f.original_link ∈ unrestricted.map UEntry.link) →
      ∀ p ∈ tmap.foldl
          (fun groups p =>
            if torrentFiles (buildDict (unrestricted.filterMap
                (fun r => r.result.map (fun res => (r.link, res)))))
                skip_existing existing_urls p.2.links ≠ [] then
              groups ++ [(p.1, ⟨p.2.filename, sanitize_folder_name p.2.filename,
                torrentFiles (buildDict (unrestricted.filterMap
                  (fun r => r.result.map (fun res => (r.link, res)))))
                  skip_existing existing_urls p.2.links⟩)]
            else groups)
          acc,
        ∀ f ∈ p.2.files, f.original_link ∈ unrestricted.map UEntry.link by
    exact haux [] (fun p hp => absurd hp (List.not_mem_nil p))
  induction tmap with
  | nil => exact fun acc hacc => hacc
  | cons q tmap2 ih =>
    intro acc hacc p hp
    rw [List.foldl_cons] at hp
    refine ih _ ?_ p hp
    intro p2 hp2 f hf
    split at hp2
    · rcases List.mem_append.mp hp2 with h | h
      · exact hacc p2 h f hf
      · have hpq : p2 = (q.1, ⟨q.2.filename, sanitize_folder_name q.2.filename,
            torrentFiles (buildDict (unrestricted.filterMap
              (fun r => r.result.map (fun res => (r.link, res)))))
              skip_existing existing_urls q.2.links⟩) := by simpa using h
        rw [hpq] at hf
        rcases torrentFiles_links _ _ _ q.2.links [] f hf with h2 | h2
        · exact absurd h2 (List.not_mem_nil f)
        · obtain ⟨qq, hqq, hqqe⟩ := List.mem_map.mp h2
          rw [← hqqe]
          exact hkey qq hqq
    · exact hacc p2 hp2 f hf

/-- C10: links of downloaded torrents are collected for resolution exactly
when they start with the literal prefix `https://real-debrid.com/d/`; a link
without the prefix that has no pre-existing entry in the unrestricted data is
never sent to the unrestrict endpoint during the run and never appears as the
source link of any grouped file (hence produces no pointer file). -/
theorem non_prefix_links_excluded (torrents : List Torrent)
    (existing_results : List UEntry) (resolve : String → UStatus)
    (existing_urls : List String) (link : String)
    (hnp : pyStartsWith link rdLinkPfx = false)
    (hex : link ∉ existing_results.map UEntry.link) :
    (∀ l ∈ collect_links torrents, pyStartsWith l rdLinkPfx = true)
    ∧ link ∉ (process_torrents_with_grouping torrents existing_results
        resolve).unrestrictCalls
    ∧ ∀ p ∈ create_torrent_groups_with_skip torrents
          (process_torrents_with_grouping torrents existing_results
            resolve).allResults true existing_urls,
        ∀ f ∈ p.2.files, f.original_link ≠ link := by
  refine ⟨collect_links_all_prefixed torrents, ?_, ?_⟩
  · intro hmem
    rw [process_torrents_with_grouping] at hmem
    split at hmem
    · simp at hmem
    · simp only at hmem
      have h1 : link ∈ collect_links torrents := (List.mem_filter.mp hmem).1
      have h2 := collect_links_all_prefixed torrents link h1
      rw [hnp] at h2
      cases h2
  · intro p hp f hf hlink
    have hres : f.original_link ∈ (process_torrents_with_grouping torrents
        existing_results resolve).allResults.map UEntry.link :=
      groups_files_from_unrestricted torrents _ true existing_urls p hp f hf
    rw [hlink] at hres
    rw [process_torrents_with_grouping] at hres
    split at hres
    · exact hex hres
    · simp only [List.map_append] at hres
      rcases List.mem_append.mp hres with h | h
      · exact hex h
      · rw [List.map_map, unrestrict_links_batch_eq_map, List.map_map] at h
        have hcomp : ((UEntry.link ∘ outcomeToEntry) ∘ fun l =>
            (⟨l, resolve l⟩ : UOutcome)) = fun l => l := by
          funext l
          simp only [Function.comp_def]
          cases resolve l <;> rfl
        rw [hcomp] at h
        have hpf : link ∈ (collect_links torrents).filter
            (fun l => !((existing_results.map UEntry.link).contains l)) := by
          simpa using h
        have h1 : link ∈ collect_links torrents := (List.mem_filter.mp hpf).1
        have h2 := collect_links_all_prefixed torrents link h1
        rw [hnp] at h2
        cases h2

/-- Witness for C10: one downloaded torrent holding a prefixed link and an
`ftp://` link; the conclusion is instantiated at the non-prefixed link with
empty prior results. -/
theorem non_prefix_links_excluded_witness :
    (∀ l ∈ collect_links [⟨"T1", "N", "downloaded",
        ["https://real-debrid.com/d/ok", "ftp://bad"]⟩],
      pyStartsWith l rdLinkPfx = true)
    ∧ "ftp://bad" ∉ (process_torrents_with_grouping
        [⟨"T1", "N", "downloaded", ["https://real-debrid.com/d/ok", "ftp://bad"]⟩]
        [] (fun _ => UStatus.failedRateLimit)).unrestrictCalls
    ∧ ∀ p ∈ create_torrent_groups_with_skip
          [⟨"T1", "N", "downloaded",
            ["https://real-debrid.com/d/ok", "ftp://bad"]⟩]
          (process_torrents_with_grouping
            [⟨"T1", "N", "downloaded",
              ["https://real-debrid.com/d/ok", "ftp://bad"]⟩]
            [] (fun _ => UStatus.failedRateLimit)).allResults true [],
        ∀ f ∈ p.2.files, f.original_link ≠ "ftp://bad" :=
  non_prefix_links_excluded _ [] _ [] "ftp://bad" (by decide)
    (by decide)

/-! ## Reconciliation idempotence (C3) -/

/-- The flattened list of write targets `((folder, name), url)` that a group
list generates, in loop order. -/
def strmTriples (groups : List (String × TorrentGroup)) :
    List ((String × String) × String) :=
  (groups.map (fun p => p.2.files.map
    (fun f => ((p.2.folder_name, f.sanitized_name ++ ".strm"),
      f.download_url)))).flatten

/-- Helper: the nested pointer-file loop equals one fold over the flattened
write list. -/
theorem create_grouped_eq_fold (groups : List (String × TorrentGroup))
    (fs : STRMTree) :
    create_grouped_strm_files groups fs
      = (strmTriples groups).foldl strmStep (fs, 0, 0) := by
  rw [create_grouped_strm_files, strmTriples]
  generalize (fs, (0 : Nat), (0 : Nat)) = st
  induction groups generalizing st with
  | nil => rfl
  | cons p groups2 ih =>
    rw [List.foldl_cons, List.map_cons, List.flatten_cons, List.foldl_append,
      ← ih, List.foldl_map]

theorem dictGet?_map_update_self {κ ν : Type} [BEq κ] [LawfulBEq κ]
    (m : List (κ × ν)) (k : κ) (v : ν)
    (hany : (m.any fun p => p.1 == k) = true) :
    dictGet? (m.map (fun p => if p.1 == k then (k, v) else p)) k = some v := by
  induction m with
  | nil => simp at hany
  | cons q m2 ih =>
    rw [List.map_cons]
    by_cases hq : (q.1 == k) = true
    · rw [if_pos hq, dictGet?]
      simp
    · rw [if_neg hq, dictGet?, if_neg hq]
      rw [List.any_cons] at hany
      rcases Bool.or_eq_true_iff.mp hany with h | h
      · exact absurd h hq
      · exact ih h

theorem dictGet?_append_single_self {κ ν : Type} [BEq κ] [LawfulBEq κ]
    (m : List (κ × ν)) (k : κ) (v : ν)
    (hnone : (m.any fun p => p.1 == k) = false) :
    dictGet? (m ++ [(k, v)]) k = some v := by
  induction m with
  | nil =>
    rw [List.nil_append, dictGet?]
    simp
  | cons q m2 ih =>
    rw [List.any_cons, Bool.or_eq_false_iff] at hnone
    rw [List.cons_append, dictGet?, if_neg (by rw [hnone.1]; simp)]
    exact ih hnone.2

theorem dictGet?_insert_self {κ ν : Type} [BEq κ] [LawfulBEq κ]
    (m : List (κ × ν)) (k : κ) (v : ν) :
    dictGet? (dictInsert m k v) k = some v := by
  rw [dictInsert]
  split
  · rename_i hany
    exact dictGet?_map_update_self m k v hany
  · rename_i hany
    exact dictGet?_append_single_self m k v (Bool.of_not_eq_true hany)

theorem dictGet?_map_update_other {κ ν : Type} [BEq κ] [LawfulBEq κ]
    (m : List (κ × ν)) (k k2 : κ) (v : ν) (hne : k2 ≠ k) :
    dictGet? (m.map (fun p => if p.1 == k then (k, v) else p)) k2
      = dictGet? m k2 := by
  induction m with
  | nil => rfl
  | cons q m2 ih =>
    rw [List.map_cons]
    by_cases hq : (q.1 == k) = true
    · have hqk : q.1 = k := by simpa using hq
      have h1 : ¬ ((k == k2) = true) := by
        simp
        intro h2
        exact hne h2.symm
      have h2 : ¬ ((q.1 == k2) = true) := by
        rw [hqk]
        exact h1
      rw [if_pos hq, dictGet?, dictGet?, if_neg h1, if_neg h2]
      exact ih
    · rw [if_neg hq, dictGet?, dictGet?]
      by_cases hq2 : (q.1 == k2) = true
      · rw [if_pos hq2, if_pos hq2]
      · rw [if_neg hq2, if_neg hq2]
        exact ih

theorem dictGet?_append_single_other {κ ν : Type} [BEq κ] [LawfulBEq κ]
    (m : List (κ × ν)) (k k2 : κ) (v : ν) (hne : k2 ≠ k) :
    dictGet? (m ++ [(k, v)]) k2 = dictGet? m k2 := by
  induction m with
  | nil =>
    have h1 : ¬ ((k == k2) = true) := by
      simp
      intro h2
      exact hne h2.symm
    rw [List.nil_append]
    simp only [dictGet?, if_neg h1]
  | cons q m2 ih =>
    rw [List.cons_append, dictGet?, dictGet?]
    by_cases hq2 : (q.1 == k2) = true
    · rw [if_pos hq2, if_pos hq2]
    · rw [if_neg hq2, if_neg hq2]
      exact ih

theorem dictGet?_insert_other {κ ν : Type} [BEq κ] [LawfulBEq κ]
    (m : List (κ × ν)) (k k2 : κ) (v : ν) (hne : k2 ≠ k) :
    dictGet? (dictInsert m k v) k2 = dictGet? m k2 := by
  rw [dictInsert]
  split
  · exact dictGet?_map_update_other m k k2 v hne
  · exact dictGet?_append_single_other m k k2 v hne

/-- Helper: `strmStep` leaves every key other than its own target alone. -/
theorem strmStep_preserves_other (st : STRMTree × Nat × Nat)
    (tr : (String × String) × String) (k : String × String) (hk : tr.1 ≠ k) :
    dictGet? (strmStep st tr).1 k = dictGet? st.1 k := by
  have hne : k ≠ (tr.1.1, tr.1.2) := fun h => hk h.symm
  have hw : dictGet? (writeStrm st.1 tr.1.1 tr.1.2 tr.2).1 k
      = dictGet? st.1 k := by
    rw [writeStrm]
    split
    · split
      · rfl
      · exact dictGet?_insert_other st.1 (tr.1.1, tr.1.2) k tr.2 hne
    · exact dictGet?_insert_other st.1 (tr.1.1, tr.1.2) k tr.2 hne
  rw [strmStep]
  split
  · exact hw
  · exact hw

/-- Helper: after `strmStep` on a triple with a strip-invariant URL, the
target key stores a content whose stripped form is that URL. -/
theorem strmStep_establishes (st : STRMTree × Nat × Nat)
    (tr : (String × String) × String) (hstrip : pyStripStr tr.2 = tr.2) :
    ∃ c, dictGet? (strmStep st tr).1 tr.1 = some c ∧ pyStripStr c = tr.2 := by
  have hw : ∃ c, dictGet? (writeStrm st.1 tr.1.1 tr.1.2 tr.2).1 tr.1 = some c
      ∧ pyStripStr c = tr.2 := by
    rw [writeStrm]
    split
    · rename_i content hcont
      split
      · rename_i heq
        exact ⟨content, hcont, heq⟩
      · exact ⟨tr.2, dictGet?_insert_self st.1 (tr.1.1, tr.1.2) tr.2, hstrip⟩
    · exact ⟨tr.2, dictGet?_insert_self st.1 (tr.1.1, tr.1.2) tr.2, hstrip⟩
  rw [strmStep]
  split
  · exact hw
  · exact hw

theorem strmFold_preserves (L : List ((String × String) × String)) :
    ∀ (st : STRMTree × Nat × Nat) (k : String × String),
      (∀ t ∈ L, t.1 ≠ k) →
      dictGet? (L.foldl strmStep st).1 k = dictGet? st.1 k := by
  induction L with
  | nil => exact fun st k _ => rfl
  | cons t0 L2 ih =>
    intro st k hk
    rw [List.foldl_cons]
    rw [ih (strmStep st t0) k
      (fun t ht => hk t (List.mem_cons_of_mem t0 ht))]
    exact strmStep_preserves_other st t0 k (hk t0 (List.mem_cons_self t0 L2))

/-- Helper: after one pass over a consistent, strip-invariant write list,
every listed key stores a content stripping to its URL. -/
theorem strmFold_establishes (L : List ((String × String) × String)) :
    ∀ (st : STRMTree × Nat × Nat),
      (∀ t1 ∈ L, ∀ t2 ∈ L, t1.1 = t2.1 → t1.2 = t2.2) →
      (∀ t ∈ L, pyStripStr t.2 = t.2) →
      ∀ t ∈ L, ∃ c, dictGet? (L.foldl strmStep st).1 t.1 = some c
        ∧ pyStripStr c = t.2 := by
  induction L with
  | nil => exact fun st _ _ t ht => absurd ht (List.not_mem_nil t)
  | cons t0 L2 ih =>
    intro st hcons hstrip t ht
    rw [List.foldl_cons]
    have hcons2 : ∀ t1 ∈ L2, ∀ t2 ∈ L2, t1.1 = t2.1 → t1.2 = t2.2 :=
      fun t1 h1 t2 h2 => hcons t1 (List.mem_cons_of_mem t0 h1) t2
        (List.mem_cons_of_mem t0 h2)
    have hstrip2 : ∀ t ∈ L2, pyStripStr t.2 = t.2 :=
      fun t h => hstrip t (List.mem_cons_of_mem t0 h)
    rcases List.mem_cons.mp ht with rfl | htl
    · by_cases hkey : ∃ t2 ∈ L2, t2.1 = t.1
      · obtain ⟨t2, ht2, ht2k⟩ := hkey
        have hv : t2.2 = t.2 :=
          hcons t2 (List.mem_cons_of_mem t ht2) t (List.mem_cons_self t L2) ht2k
        obtain ⟨c, hc, hcs⟩ := ih (strmStep st t) hcons2 hstrip2 t2 ht2
        exact ⟨c, by rw [← ht2k]; exact hc, by rw [hcs, hv]⟩
      · push_neg at hkey
        rw [strmFold_preserves L2 (strmStep st t) t.1
          (fun t2 h2 => hkey t2 h2)]
        exact strmStep_establishes st t
          (hstrip t (List.mem_cons_self t L2))
    · exact ih (strmStep st t0) hcons2 hstrip2 t htl

/-- Helper: a pass over a write list whose every key already stores its URL
performs zero writes (every item is a skip). -/
theorem strmFold_all_skips (L : List ((String × String) × String)) :
    ∀ (fs : STRMTree) (cr sk : Nat),
      (∀ t ∈ L, ∃ c, dictGet? fs t.1 = some c ∧ pyStripStr c = t.2) →
      L.foldl strmStep (fs, cr, sk) = (fs, cr, sk + L.length) := by
  induction L with
  | nil => intro fs cr sk _; rfl
  | cons t0 L2 ih =>
    intro fs cr sk hall
    obtain ⟨c, hc, hcs⟩ := hall t0 (List.mem_cons_self t0 L2)
    have hc2 : dictGet? fs (t0.1.1, t0.1.2) = some c := hc
    have hwrite : writeStrm fs t0.1.1 t0.1.2 t0.2 = (fs, false) := by
      rw [writeStrm]
      simp only [hc2]
      rw [if_pos hcs]
    have hstep : strmStep (fs, cr, sk) t0 = (fs, cr, sk + 1) := by
      simp [strmStep, hwrite]
    rw [List.foldl_cons, hstep,
      ih fs cr (sk + 1) (fun t ht => hall t (List.mem_cons_of_mem t0 ht))]
    have hn : sk + 1 + L2.length = sk + (t0 :: L2).length := by
      rw [List.length_cons]
      omega
    rw [hn]

/-- Counterexample input for C3: one downloaded torrent whose two resolved
files are both large videos whose filenames `a_b.mkv` and `a.b.mkv` sanitize
to the same pointer-file name `a b`, with different direct URLs. -/
def cexTorrents : List Torrent :=
  [⟨"T1", "My Show", "downloaded",
    ["https://real-debrid.com/d/x1", "https://real-debrid.com/d/x2"]⟩]

/-- Unrestricted results for the C3 counterexample. -/
def cexEntries : List UEntry :=
  [⟨"https://real-debrid.com/d/x1",
    some ⟨"http://u1", "a_b.mkv", 400 * 1024 * 1024, "video/x-matroska"⟩⟩,
   ⟨"https://real-debrid.com/d/x2",
    some ⟨"http://u2", "a.b.mkv", 400 * 1024 * 1024, "video/x-matroska"⟩⟩]

/-- C3 counterexample: reconciliation is not idempotent.  With the colliding
inputs above, the second pass over the unchanged inputs and the tree produced
by the first pass performs two writes, not zero: each pass alternately
rewrites the shared pointer file `My Show/a b.strm` with `http://u1` and
`http://u2`. -/
theorem reconcile_not_idempotent :
    (create_grouped_strm_files
        (create_torrent_groups_with_skip cexTorrents cexEntries true [])
        (create_grouped_strm_files
          (create_torrent_groups_with_skip cexTorrents cexEntries true [])
          []).1).2.1 ≠ 0 := by
  decide

/-- C3 amended: reconciliation is idempotent provided the computed write set
has no collisions — any two accepted files mapping to the same (folder,
pointer-file name) have equal URLs — and every URL equals its own stripped
form.  Under these hypotheses a second pass over the unchanged groups and the
tree left by the first pass performs zero writes: every pair whose stored URL
equals the computed URL is recorded as a skip. -/
theorem reconcile_idempotent_without_collisions
    (groups : List (String × TorrentGroup)) (fs0 : STRMTree)
    (hcons : ∀ t1 ∈ strmTriples groups, ∀ t2 ∈ strmTriples groups,
      t1.1 = t2.1 → t1.2 = t2.2)
    (hstrip : ∀ t ∈ strmTriples groups, pyStripStr t.2 = t.2) :
    (create_grouped_strm_files groups
        (create_grouped_strm_files groups fs0).1).2.1 = 0 := by
  rw [create_grouped_eq_fold, create_grouped_eq_fold]
  have hpost := strmFold_establishes (strmTriples groups) (fs0, 0, 0)
    hcons hstrip
  rw [strmFold_all_skips (strmTriples groups) _ 0 0 hpost]

/-- Witness for the amended C3: a single one-file group written into an empty
tree; the second pass skips the file. -/
theorem reconcile_idempotent_without_collisions_witness :
    (∀ t1 ∈ strmTriples [("T1", ⟨"N", "N",
        [⟨"l", "http://u", "f.mkv", 0, "", "video", "f"⟩]⟩)],
      ∀ t2 ∈ strmTriples [("T1", ⟨"N", "N",
        [⟨"l", "http://u", "f.mkv", 0, "", "video", "f"⟩]⟩)],
      t1.1 = t2.1 → t1.2 = t2.2)
    ∧ (create_grouped_strm_files [("T1", ⟨"N", "N",
        [⟨"l", "http://u", "f.mkv", 0, "", "video", "f"⟩]⟩)]
        (create_grouped_strm_files [("T1", ⟨"N", "N",
          [⟨"l", "http://u", "f.mkv", 0, "", "video", "f"⟩]⟩)] []).1).2.1 = 0 :=
  ⟨by decide, reconcile_idempotent_without_collisions _ [] (by decide)
    (by decide)⟩

/-! ## Retry queue (`CycleManager`) -/

/-- One item of `retry_queue.json` (cycle_manager.py lines 81-86). -/
structure RetryItem where
  link : String
  torrent_info : String
  added_at : String
  retry_count : Nat
deriving DecidableEq, Repr

/-- Model of `CycleManager._add_to_retry_queue` (cycle_manager.py lines
79-89): append a fresh item with `retry_count = 0` and persist.  This method
has no call site anywhere in the repository: no code path ever invokes it. -/
def add_to_retry_queue (queue : List RetryItem)
    (link torrent_info now : String) : List RetryItem :=
  queue ++ [⟨link, torrent_info, now, 0⟩]

/-- Model of `CycleManager._process_retry_queue` (cycle_manager.py lines
140-177): an empty queue is returned unchanged with zero counters; otherwise
every item is counted as processed and succeeded (the single-link retry is a
`TODO` in the source, items are marked succeeded without being re-resolved)
and the persisted queue becomes the never-appended `new_retry_queue`, i.e.
empty.  Returns (new queue, processed, succeeded, failed); the file-tracking
side writes are not modelled. -/
def process_retry_queue (queue : List RetryItem) :
    List RetryItem × Nat × Nat × Nat :=
  if queue = [] then (queue, 0, 0, 0)
  else ([], queue.length, queue.length, 0)

/-- The complete evolution of the persisted retry queue across one
`run_cycle` (cycle_manager.py lines 179-225): the queue is transformed only
by `_process_retry_queue` (step 2 of the cycle); no other statement of
`run_cycle` or of the processing pipeline it invokes touches `retry_queue`,
and `_add_to_retry_queue` — the only appending method — is never called
anywhere in the repository. -/
def run_cycle_retry_queue (queue : List RetryItem) : List RetryItem :=
  (process_retry_queue queue).1

/-- C2 (code bug): the persisted retry queue after a cycle is always empty,
even when a link resolution of that cycle ends as `retry_next_cycle`.  The
first conjunct evaluates the resolver at the failing input (three 503
responses under `retry503Max = 2`), producing the deferred outcome that the
spec says must populate the queue; the second conjunct shows the queue
persisted after any cycle is `[]`, so it never contains that link:
`_add_to_retry_queue` is dead code and `_process_retry_queue` unconditionally
clears the queue. -/
theorem retry_queue_never_populated :
    (unrestrict_link 3 2 "https://real-debrid.com/d/a"
        [.status 503 "", .status 503 "", .status 503 ""]).map
          (fun r => r.1.status)
      = some (.retryNextCycle 3)
    ∧ ∀ queue : List RetryItem, run_cycle_retry_queue queue = [] := by
  constructor
  · rfl
  · intro queue
    rw [run_cycle_retry_queue, process_retry_queue]
    split
    · assumption
    · rfl

/-! ## Cycle scheduler (`CycleManager.run_scheduler`) -/

/-- Outcome of one cycle iteration as seen by the scheduler loop: normal
completion, an exception caught by the generic `except Exception` handler, or
a `KeyboardInterrupt` (the interrupt/termination signal). -/
inductive CycleOut where
  | ok
  | exc (msg : String)
  | interrupt
deriving DecidableEq, Repr

/-- Scheduler state: still looping after a number of completed iterations, or
stopped by the interrupt handler after that many iterations. -/
inductive SchedState where
  | running (iters : Nat)
  | stopped (iters : Nat)
deriving DecidableEq, Repr

/-- One pass of the `while True` body of `CycleManager.run_scheduler`
(cycle_manager.py lines 233-257): once stopped, stay stopped; otherwise a
`KeyboardInterrupt` breaks the loop, and both a normal cycle and a caught
exception sleep the full configured interval and continue with the next
cycle. -/
def schedStep (stream : Nat → CycleOut) (interval : Nat)
    (st : SchedState × List Nat) : SchedState × List Nat :=
  match st with
  | (.stopped k, sleeps) => (.stopped k, sleeps)
  | (.running k, sleeps) =>
    match stream k with
    | .interrupt => (.stopped k, sleeps)
    | _ => (.running (k + 1), sleeps ++ [interval])

/-- Model of `CycleManager.run_scheduler` observed for `n` iterations of the
loop body: `stream k` is how iteration `k` ends.  Returns the scheduler
state and the list of inter-cycle sleeps performed. -/
def run_scheduler (stream : Nat → CycleOut) (interval : Nat) :
    Nat → SchedState × List Nat
  | 0 => (.running 0, [])
  | n + 1 => schedStep stream interval (run_scheduler stream interval n)

/-- Helper: while the scheduler is running, its iteration count equals the
number of loop passes observed. -/
theorem run_scheduler_running_count (stream : Nat → CycleOut) (interval : Nat) :
    ∀ n k sleeps, run_scheduler stream interval n = (.running k, sleeps) →
      k = n := by
  intro n
  induction n with
  | zero =>
    intro k sleeps h
    rw [run_scheduler] at h
    injection h with h1 h2
    injection h1 with h3
    exact h3.symm
  | succ n ih =>
    intro k sleeps h
    rw [run_scheduler] at h
    rcases hrec : run_scheduler stream interval n with ⟨st, sl⟩
    rw [hrec] at h
    cases st with
    | stopped k2 =>
      rw [schedStep] at h
      injection h with h1 h2
      cases h1
    | running k2 =>
      have hk2 : k2 = n := ih k2 sl hrec
      rw [schedStep] at h
      cases hsn : stream k2 with
      | interrupt =>
        rw [hsn] at h
        injection h with h1 h2
        cases h1
      | ok =>
        rw [hsn] at h
        injection h with h1 h2
        injection h1 with h3
        omega
      | exc m =>
        rw [hsn] at h
        injection h with h1 h2
        injection h1 with h3
        omega

/-- C8: the scheduler never terminates because of a cycle-level failure.  If
no iteration below `n` ends in the interrupt signal, then after `n`
iterations the loop is still running — cycle exceptions included — and has
slept the full configured interval after every iteration; conversely, if the
loop has stopped, some earlier iteration raised the interrupt signal (and
only that signal ends the loop). -/
theorem scheduler_survives_cycle_failures (stream : Nat → CycleOut)
    (interval n : Nat) :
    ((∀ k, k < n → stream k ≠ .interrupt) →
      run_scheduler stream interval n
        = (.running n, List.replicate n interval))
    ∧ (∀ k sleeps, run_scheduler stream interval n = (.stopped k, sleeps) →
        stream k = .interrupt ∧ k < n) := by
  induction n with
  | zero =>
    constructor
    · intro _
      rfl
    · intro k sleeps h
      rw [run_scheduler] at h
      injection h with h1 h2
      cases h1
  | succ n ih =>
    constructor
    · intro hno
      rw [run_scheduler, ih.1 (fun k hk => hno k (Nat.lt_succ_of_lt hk))]
      have hn := hno n (Nat.lt_succ_self n)
      rw [schedStep]
      cases hsn : stream n with
      | ok => simp [List.replicate_succ']
      | exc m => simp [List.replicate_succ']
      | interrupt => exact absurd hsn hn
    · intro k sleeps h
      rw [run_scheduler] at h
      rcases hrec : run_scheduler stream interval n with ⟨st, sl⟩
      rw [hrec] at h
      cases st with
      | stopped k2 =>
        rw [schedStep] at h
        injection h with h1 h2
        injection h1 with h3
        obtain ⟨hs, hlt⟩ := ih.2 k2 sl hrec
        rw [← h3]
        exact ⟨hs, Nat.lt_succ_of_lt hlt⟩
      | running k2 =>
        have hk2 : k2 = n := run_scheduler_running_count stream interval n k2 sl hrec
        rw [schedStep] at h
        cases hsn : stream k2 with
        | interrupt =>
          rw [hsn] at h
          injection h with h1 h2
          injection h1 with h3
          rw [← h3]
          exact ⟨hsn, by omega⟩
        | ok =>
          rw [hsn] at h
          injection h with h1 h2
          cases h1
        | exc m =>
          rw [hsn] at h
          injection h with h1 h2
          cases h1

/-- Witness for C8: a three-iteration schedule whose second cycle raises an
exception; the scheduler is still running after three iterations with three
full-interval sleeps. -/
theorem scheduler_survives_cycle_failures_witness :
    run_scheduler (fun k => if k = 1 then .exc "boom" else .ok) 1200 3
      = (.running 3, List.replicate 3 1200) :=
  (scheduler_survives_cycle_failures (fun k => if k = 1 then .exc "boom" else .ok)
    1200 3).1 (by decide)

end RealDebridStrm
